import Mathlib

/-!
Verification of the semantic-indexing engine of the obsidian-blue-notes
repository: document chunking (`src/chunking/markdown-parser.ts`,
`src/chunking/note-chunker.ts`), the embedding cache and batch scheduler
(`src/embeddings/batch-processor.ts`), the processing queue
(`src/embeddings/processing-queue.ts`), the orchestrator
(`src/embeddings/processor.ts`), markdown cleaning
(`src/utils/file-processor.ts`) and the ranking loop of
`SemanticSearch.search` (`src/search/semantic-search.ts`).

Document text is embedded as `Str := List Char`; every TypeScript string
operation used by the engine (split, trim, regex-based replaces, word
counting) is re-implemented here character by character, following the
exact semantics of the JavaScript regexes that appear in the source.
Whitespace is the ASCII approximation of the JavaScript `\s` class; all
inputs considered in this development are ASCII.
-/

namespace BlueNotes

/-- Document text, embedded as a list of characters. -/
abbrev Str := List Char

/-- Shorthand turning a Lean string literal into `Str`. -/
def str (s : String) : Str := s.data

/-- The ASCII part of the JavaScript `\s` character class:
space, tab, line feed, vertical tab, form feed, carriage return. -/
def jsWs (c : Char) : Bool :=
  c = ' ' ∨ c = '\t' ∨ c = '\n' ∨ c = Char.ofNat 11 ∨ c = Char.ofNat 12 ∨ c = '\r'

/-- JavaScript `String.prototype.trim`: drop whitespace from both ends. -/
def jsTrim (s : Str) : Str :=
  ((s.dropWhile jsWs).reverse.dropWhile jsWs).reverse

/-- `content.split('\n')`: split at every line feed, keeping empty pieces.
The result is never empty (splitting the empty string yields `[[]]`). -/
def splitLines (s : Str) : List Str :=
  match s with
  | [] => [[]]
  | c :: rest =>
    if c = '\n' then [] :: splitLines rest
    else
      match splitLines rest with
      | [] => [[c]]
      | piece :: pieces => (c :: piece) :: pieces

/-- The maximal non-whitespace runs of a string: the result of
`text.split(/\s+/).filter(w => w.length > 0)` used by `countWords`. -/
def wordsOf (s : Str) : List Str :=
  match s with
  | [] => []
  | c :: rest =>
    if jsWs c then wordsOf rest
    else
      match wordsOf rest with
      | [] => [[c]]
      | w :: ws =>
        match rest with
        | [] => [[c]]
        | d :: _ => if jsWs d then [c] :: w :: ws else (c :: w) :: ws

end BlueNotes

namespace BlueNotes.MarkdownParser

/-- `countWords` from `src/chunking/markdown-parser.ts`:
`text.split(/\s+/).filter(w => w.length > 0).length`. -/
def countWords (text : Str) : Nat := (wordsOf text).length

/-- A parsed heading (`Heading` in `src/chunking/types.ts`). -/
structure Heading where
  level : Nat
  text : Str
  line : Nat
  raw : Str
  deriving DecidableEq, Repr

/-- A section of the document (`Section` in `src/chunking/types.ts`). -/
inductive Section where
  | mk (heading : Option Heading) (contentLines : List Str)
       (startLine endLine : Nat) (subsections : List Section)
  deriving Repr

def Section.heading : Section → Option Heading
  | .mk h _ _ _ _ => h

def Section.contentLines : Section → List Str
  | .mk _ c _ _ _ => c

def Section.startLine : Section → Nat
  | .mk _ _ s _ _ => s

def Section.endLine : Section → Nat
  | .mk _ _ _ e _ => e

def Section.subsections : Section → List Section
  | .mk _ _ _ _ ss => ss

/-- Whether `line.match(/^(#{1,6})\s+(.+)$/)` succeeds, i.e. one to six
hash marks, at least one whitespace character, and at least one further
character. -/
def isHeadingLine (line : Str) : Bool :=
  let hashes := line.takeWhile (· = '#')
  let rest := line.drop hashes.length
  (1 ≤ hashes.length && hashes.length ≤ 6) &&
    (match rest with
     | [] => false
     | c :: tail => jsWs c && !tail.isEmpty)

/-- The heading level and text captured by `/^(#{1,6})\s+(.+)$/`; the
captured text is `match[2].trim()`, which equals trimming everything
after the hash marks. -/
def headingOfLine (line : Str) (lineNo : Nat) : Option Heading :=
  let hashes := line.takeWhile (· = '#')
  if isHeadingLine line then
    some ⟨hashes.length, jsTrim (line.drop hashes.length), lineNo, line⟩
  else none

/-- `parseHeadings` from `src/chunking/markdown-parser.ts`: one `Heading`
per line matching the heading pattern, in document order. -/
def parseHeadings (content : Str) : List Heading :=
  let lines := splitLines content
  (lines.enum.filterMap fun (i, line) => headingOfLine line i)

/-- Whether `line.match(/^#{1,6}\s+/)` succeeds (the weaker pattern used
inside `buildSectionTree` to stop a content run): one to six hash marks
followed by at least one whitespace character. -/
def isHashWsLine (line : Str) : Bool :=
  let hashes := line.takeWhile (· = '#')
  (1 ≤ hashes.length && hashes.length ≤ 6) &&
    (match line.drop hashes.length with
     | [] => false
     | c :: _ => jsWs c)

/-- The inner loop of `buildSectionTree`: push lines until a line that is
non-empty (`line &&`) and matches `/^#{1,6}\s+/`. -/
def contentRun (lines : List Str) : List Str :=
  lines.takeWhile fun line => ¬(line ≠ [] ∧ isHashWsLine line)

/-- `buildSectionTree` from `src/chunking/markdown-parser.ts`: a flat
section list; headings deeper than `maxHeadingLevel` are filtered out,
content before the first kept heading becomes a preamble, and each
section's content run is cut by `contentRun`. -/
def buildSectionTree (lines : List Str) (headings : List Heading)
    (maxHeadingLevel : Nat) : List Section :=
  if headings = [] then
    [.mk none lines 0 (lines.length - 1) []]
  else
    let filteredHeadings := headings.filter (fun h => h.level ≤ maxHeadingLevel)
    let preamble : List Section :=
      match filteredHeadings with
      | [] => []
      | h₀ :: _ =>
        if 0 < h₀.line then
          [.mk none (lines.take h₀.line) 0 (h₀.line - 1) []]
        else []
    let rec bodySections : List Heading → List Section
      | [] => []
      | h :: hs =>
        let endLine := match hs with
          | [] => lines.length - 1
          | h' :: _ => h'.line - 1
        let slice := (lines.drop (h.line + 1)).take (endLine - h.line)
        Section.mk (some h) (contentRun slice) h.line endLine [] :: bodySections hs
    preamble ++ bodySections filteredHeadings

/-- First index (if any) at which a `\n` sits inside a whitespace run
that contains a further `\n`, together with the index one past the last
`\n` of that run: the span deleted by one match of `/\n\s*\n/`. -/
def paraSepEnd (s : Str) : Option Nat :=
  match s with
  | [] => none
  | _ :: _ =>
    let run := s.takeWhile jsWs
    match (run.enum.filter fun (_, c) => c = '\n') with
    | [] => none
    | l => (l.getLast?).map fun (i, _) => i + 1

/-- Fuelled worker for `jsSplitParas`; every step consumes at least one
character, so `fuel = s.length` (as passed by `jsSplitParas`) never runs
out and the fuel-exhausted branch is unreachable. -/
def jsSplitParasF : Nat → Str → List Str
  | _, [] => [[]]
  | 0, s => [s]
  | fuel + 1, c :: rest =>
    if c = '\n' then
      match paraSepEnd rest with
      | some k => [] :: jsSplitParasF fuel (rest.drop k)
      | none =>
        match jsSplitParasF fuel rest with
        | [] => [[c]]
        | piece :: pieces => (c :: piece) :: pieces
    else
      match jsSplitParasF fuel rest with
      | [] => [[c]]
      | piece :: pieces => (c :: piece) :: pieces

/-- `content.split(/\n\s*\n/)`: repeatedly find the leftmost `\n` whose
surrounding whitespace run contains a later `\n`, and cut from that `\n`
through the last `\n` of the run (greedy `\s*` with backtracking). -/
def jsSplitParas (s : Str) : List Str := jsSplitParasF s.length s

/-- `splitIntoParagraphs` from `src/chunking/markdown-parser.ts`. -/
def splitIntoParagraphs (content : Str) : List Str :=
  ((jsSplitParas content).map jsTrim).filter (fun p => p ≠ [])

/-- One match of `/[.!?]+\s+/` starting at position 0: a maximal run of
sentence punctuation followed by a maximal whitespace run of length
at least one.  Returns the match length. -/
def sentenceSepLen (s : Str) : Option Nat :=
  let punct := s.takeWhile (fun c => c = '.' ∨ c = '!' ∨ c = '?')
  if punct = [] then none
  else
    let ws := (s.drop punct.length).takeWhile jsWs
    if ws = [] then none else some (punct.length + ws.length)

/-- A sentence separator match always has positive length. -/
theorem sentenceSepLen_pos {s : Str} {k : Nat} (h : sentenceSepLen s = some k) :
    1 ≤ k := by
  simp only [sentenceSepLen] at h
  split_ifs at h with h₁ h₂
  have : 1 ≤ (s.takeWhile fun c => decide (c = '.' ∨ c = '!' ∨ c = '?')).length := by
    cases hl : (s.takeWhile fun c => decide (c = '.' ∨ c = '!' ∨ c = '?')) with
    | nil => exact absurd hl h₁
    | cons a l => simp
  simp only [Option.some.injEq] at h
  omega

/-- Fuelled worker for `jsSplitSentences`; a separator match has
positive length (`sentenceSepLen_pos`), so `fuel = s.length` never runs
out. -/
def jsSplitSentencesF : Nat → Str → List Str
  | _, [] => [[]]
  | 0, s => [s]
  | fuel + 1, c :: rest =>
    match sentenceSepLen (c :: rest) with
    | some k => [] :: jsSplitSentencesF fuel ((c :: rest).drop k)
    | none =>
      match jsSplitSentencesF fuel rest with
      | [] => [[c]]
      | piece :: pieces => (c :: piece) :: pieces

/-- `content.split(/[.!?]+\s+/)`. -/
def jsSplitSentences (s : Str) : List Str := jsSplitSentencesF s.length s

/-- `splitIntoSentences` from `src/chunking/markdown-parser.ts`. -/
def splitIntoSentences (content : Str) : List Str :=
  ((jsSplitSentences content).map jsTrim).filter (fun p => p ≠ [])

/-- Fuelled worker for `collapseWs`; every step consumes at least one
character, so `fuel = s.length` never runs out. -/
def collapseWsF : Nat → Str → Str
  | _, [] => []
  | 0, s => s
  | fuel + 1, c :: rest =>
    if jsWs c then ' ' :: collapseWsF fuel (rest.dropWhile jsWs)
    else c :: collapseWsF fuel rest

/-- Collapse every whitespace run to a single space:
`text.replace(/\s+/g, ' ')`. -/
def collapseWs (s : Str) : Str := collapseWsF s.length s

/-- `text.lastIndexOf(' ')` on a list, `none` when absent. -/
def lastSpaceIdx (s : Str) : Option Nat :=
  match (s.enum.filter fun (_, c) => c = ' ') with
  | [] => none
  | l => (l.getLast?).map Prod.fst

/-- `createPreview` from `src/chunking/markdown-parser.ts`
(`maxLength` defaults to 150). -/
def createPreview (text : Str) (maxLength : Nat := 150) : Str :=
  let cleaned := jsTrim (collapseWs text)
  if cleaned.length ≤ maxLength then cleaned
  else
    let truncated := cleaned.take maxLength
    match lastSpaceIdx truncated with
    | some lastSpace =>
      if maxLength * 4 < lastSpace * 5 then  -- lastSpace > maxLength * 0.8
        truncated.take lastSpace ++ str "..."
      else truncated ++ str "..."
    | none => truncated ++ str "..."

/-- The backwards walk of `buildHeadingHierarchy`, over the reversed list
of headings before the current one: collect `h.raw` (in front) whenever
`h.level` is strictly below the running level. -/
def hierAux : List Heading → Nat → List Str
  | [], _ => []
  | h :: rest, cur =>
    if h.level < cur then hierAux rest h.level ++ [h.raw]
    else hierAux rest cur

/-- `buildHeadingHierarchy` from `src/chunking/markdown-parser.ts`.
`headings.indexOf(currentHeading)` is modelled by `findIdx?` with
structural equality; in every call made by the chunker the current
heading is an element of `headings`, and headings are distinguished by
their `line` field, so this matches JavaScript reference equality. -/
def buildHeadingHierarchy (headings : List Heading) (current : Heading) :
    List Str :=
  match headings.findIdx? (· = current) with
  | none => [current.raw]
  | some idx => hierAux ((headings.take idx).reverse) current.level ++ [current.raw]

end BlueNotes.MarkdownParser

namespace BlueNotes.NoteChunker

open BlueNotes.MarkdownParser

/-- `ChunkingOptions` from `src/chunking/types.ts`. -/
structure ChunkingOptions where
  maxWords : Nat
  minWords : Nat
  splitAtHeadings : Bool
  maxHeadingLevel : Nat
  deriving DecidableEq, Repr

/-- `DEFAULT_CHUNKING_OPTIONS` from `src/chunking/types.ts`. -/
def DEFAULT_CHUNKING_OPTIONS : ChunkingOptions :=
  { maxWords := 800, minWords := 100, splitAtHeadings := true, maxHeadingLevel := 3 }

/-- `Chunk` from `src/chunking/types.ts`. -/
structure Chunk where
  chunkId : Str
  content : Str
  headings : List Str
  startLine : Nat
  endLine : Nat
  wordCount : Nat
  preview : Str
  deriving DecidableEq, Repr

/-- `array.join(sep)`. -/
def joinSep (sep : Str) : List Str → Str
  | [] => []
  | [x] => x
  | x :: xs => x ++ sep ++ joinSep sep xs

/-- The character class `[a-z0-9]` of `createChunkId`'s first replace. -/
def isSlugChar (c : Char) : Bool :=
  ('a' ≤ c && c ≤ 'z') || ('0' ≤ c && c ≤ '9')

/-- Fuelled worker for `slugCollapse`; every step consumes at least one
character, so `fuel = s.length` never runs out. -/
def slugCollapseF : Nat → Str → Str
  | _, [] => []
  | 0, s => s
  | fuel + 1, c :: rest =>
    if isSlugChar c then c :: slugCollapseF fuel rest
    else '-' :: slugCollapseF fuel (rest.dropWhile (fun d => ¬ isSlugChar d))

/-- `replace(/[^a-z0-9]+/g, '-')`: collapse every run of characters
outside `[a-z0-9]` to a single hyphen. -/
def slugCollapse (s : Str) : Str := slugCollapseF s.length s

/-- `createChunkId` from `src/chunking/note-chunker.ts`: lower-case,
collapse non-alphanumeric runs to hyphens, strip outer hyphens, cap at
50 characters. -/
def createChunkId (headingText : Str) : Str :=
  let lowered := headingText.map Char.toLower
  let slugged := slugCollapse lowered
  let stripped := ((slugged.dropWhile (· = '-')).reverse.dropWhile (· = '-')).reverse
  stripped.take 50

/-- Decimal digits of a positive number, least significant first. -/
def natReprAux : Nat → List Char
  | 0 => []
  | n + 1 =>
    have : (n + 1) / 10 < n + 1 := Nat.div_lt_self (by omega) (by omega)
    Char.ofNat (48 + (n + 1) % 10) :: natReprAux ((n + 1) / 10)

/-- Decimal rendering of a natural number, as produced by the template
literal `` `chunk-${chunkIndex}` ``. -/
def natRepr (n : Nat) : Str :=
  if n = 0 then ['0'] else (natReprAux n).reverse

/-- The sequential chunk id `chunk-<i>`. -/
def chunkIdOfIndex (i : Nat) : Str := str "chunk-" ++ natRepr i

/-- `createSingleChunk` from `src/chunking/note-chunker.ts`. -/
def createSingleChunk (content : Str) (lines : List Str) : List Chunk :=
  [{ chunkId := str "chunk-0"
     content := jsTrim content
     headings := []
     startLine := 0
     endLine := lines.length - 1
     wordCount := countWords content
     preview := createPreview content }]

/-- `createChunkFromParts` from `src/chunking/note-chunker.ts`. -/
def createChunkFromParts (parts : List Str) (headings : List Str)
    (chunkIndex : Nat) : Chunk :=
  let content := jsTrim (joinSep (str "\n\n") parts)
  { chunkId := chunkIdOfIndex chunkIndex
    content := content
    headings := headings
    startLine := 0
    endLine := 0
    wordCount := countWords content
    preview := createPreview content }

/-- The loop of `chunkByParagraphs`, with the accumulated chunk list, the
current accumulator and its word count made explicit. -/
def paraGo (maxWords : Nat) (headings : List Str) :
    List Str → List Chunk → List Str → Nat → List Chunk
  | [], chunks, current, _ =>
    if current ≠ [] then chunks ++ [createChunkFromParts current headings chunks.length]
    else chunks
  | p :: ps, chunks, current, currentWords =>
    let pw := countWords p
    if maxWords < currentWords + pw ∧ current ≠ [] then
      paraGo maxWords headings ps
        (chunks ++ [createChunkFromParts current headings chunks.length]) [p] pw
    else
      paraGo maxWords headings ps chunks (current ++ [p]) (currentWords + pw)

/-- `chunkByParagraphs` from `src/chunking/note-chunker.ts` (the unused
`content` and `startLineOffset` parameters are omitted). -/
def chunkByParagraphs (maxWords : Nat) (paragraphs : List Str)
    (headings : List Str := []) : List Chunk :=
  paraGo maxWords headings paragraphs [] [] 0

/-- `allText.split(/\s+/)` keeping the empty boundary pieces produced by
leading or trailing whitespace (no `.filter` here, matching
`getLastNWords`). -/
def jsSplitWsRawF : Nat → Str → List Str
  | _, [] => [[]]
  | 0, s => [s]
  | fuel + 1, c :: rest =>
    if jsWs c then [] :: jsSplitWsRawF fuel (rest.dropWhile jsWs)
    else
      match jsSplitWsRawF fuel rest with
      | [] => [[c]]
      | piece :: pieces => (c :: piece) :: pieces

/-- `allText.split(/\s+/)` with boundary empties (see the doc comment of
the declaration above); `fuel = s.length` never runs out. -/
def jsSplitWsRaw (s : Str) : List Str := jsSplitWsRawF s.length s

/-- `getLastNWords` from `src/chunking/note-chunker.ts`. -/
def getLastNWords (parts : List Str) (n : Nat) : List Str :=
  let allText := joinSep [' '] parts
  let words := jsSplitWsRaw allText
  if words.length ≤ n then parts
  else [joinSep [' '] (words.drop (words.length - n))]

/-- The loop of `chunkBySentences`: accumulated chunks, current
accumulator, its word count, and the overlap seed of the last flush
(`previousChunkEnd`); `overlapWords` is hard-coded to 50. -/
def sentGo (maxWords : Nat) (headings : List Str) :
    List Str → List Chunk → List Str → Nat → List Str → List Chunk
  | [], chunks, current, _, prevEnd =>
    if prevEnd.length < current.length then
      chunks ++ [createChunkFromParts current headings chunks.length]
    else chunks
  | s :: ss, chunks, current, currentWords, prevEnd =>
    let sw := countWords s
    if maxWords < currentWords + sw ∧ current ≠ [] then
      let chunks' := chunks ++ [createChunkFromParts current headings chunks.length]
      let prevEnd' := getLastNWords current 50
      let currentWords' := countWords (joinSep [' '] prevEnd')
      sentGo maxWords headings ss chunks' (prevEnd' ++ [s]) (currentWords' + sw) prevEnd'
    else
      sentGo maxWords headings ss chunks (current ++ [s]) (currentWords + sw) prevEnd

/-- `chunkBySentences` from `src/chunking/note-chunker.ts`. -/
def chunkBySentences (maxWords : Nat) (sentences : List Str)
    (headings : List Str := []) : List Chunk :=
  sentGo maxWords headings sentences [] [] 0 []

/-- `splitLargeSection` from `src/chunking/note-chunker.ts`. -/
def splitLargeSection (opts : ChunkingOptions) (s : Section)
    (headingHierarchy : List Str) : List Chunk :=
  let content := joinSep ['\n'] s.contentLines
  let paragraphs := splitIntoParagraphs content
  if 1 < paragraphs.length then
    chunkByParagraphs opts.maxWords paragraphs headingHierarchy
  else
    chunkBySentences opts.maxWords (splitIntoSentences content) headingHierarchy

mutual

/-- `processSectionRecursive` from `src/chunking/note-chunker.ts`.  The
mutable `chunkCounter` object is threaded as an explicit `Nat`; the
caller `chunkByHeadings` passes a fresh counter for every top-level
section, exactly as the default argument `{ value: 0 }` does. -/
def processSectionRecursive (opts : ChunkingOptions)
    (allHeadings : List Heading) : Section → Nat → List Chunk × Nat
  | .mk heading contentLines startLine endLine subsections, counter =>
    let sectionContent := jsTrim (joinSep ['\n'] contentLines)
    let sectionWords := countWords sectionContent
    let headingHierarchy := match heading with
      | some h => buildHeadingHierarchy allHeadings h
      | none => []
    let sec : Section := .mk heading contentLines startLine endLine subsections
    if subsections.length > 0 then
      let (own, counter') :=
        if sectionWords > 0 then
          if opts.maxWords < sectionWords then
            (splitLargeSection opts sec headingHierarchy, counter)
          else
            match heading with
            | some h =>
              ([{ chunkId := createChunkId h.text, content := sectionContent,
                  headings := headingHierarchy, startLine := startLine,
                  endLine := endLine, wordCount := sectionWords,
                  preview := createPreview sectionContent }], counter)
            | none =>
              ([{ chunkId := chunkIdOfIndex counter, content := sectionContent,
                  headings := headingHierarchy, startLine := startLine,
                  endLine := endLine, wordCount := sectionWords,
                  preview := createPreview sectionContent }], counter + 1)
        else ([], counter)
      let (subs, counter'') := processSections opts allHeadings subsections counter'
      (own ++ subs, counter'')
    else
      if sectionWords = 0 then ([], counter)
      else if opts.maxWords < sectionWords then
        (splitLargeSection opts sec headingHierarchy, counter)
      else
        match heading with
        | some h =>
          ([{ chunkId := createChunkId h.text, content := sectionContent,
              headings := headingHierarchy, startLine := startLine,
              endLine := endLine, wordCount := sectionWords,
              preview := createPreview sectionContent }], counter)
        | none =>
          ([{ chunkId := chunkIdOfIndex counter, content := sectionContent,
              headings := headingHierarchy, startLine := startLine,
              endLine := endLine, wordCount := sectionWords,
              preview := createPreview sectionContent }], counter + 1)

/-- Fold `processSectionRecursive` over a subsection list, threading the
shared counter. -/
def processSections (opts : ChunkingOptions) (allHeadings : List Heading) :
    List Section → Nat → List Chunk × Nat
  | [], counter => ([], counter)
  | s :: ss, counter =>
    let (cs, counter') := processSectionRecursive opts allHeadings s counter
    let (rest, counter'') := processSections opts allHeadings ss counter'
    (cs ++ rest, counter'')

end

/-- `validateAndAdjustChunks` from `src/chunking/note-chunker.ts`: it
only logs and returns its input unchanged. -/
def validateAndAdjustChunks (chunks : List Chunk) : List Chunk := chunks

/-- `chunkByHeadings` from `src/chunking/note-chunker.ts`: each
top-level section is processed with a fresh chunk counter. -/
def chunkByHeadings (opts : ChunkingOptions) (lines : List Str)
    (headings : List Heading) : List Chunk :=
  let sections := buildSectionTree lines headings opts.maxHeadingLevel
  validateAndAdjustChunks
    (sections.foldl
      (fun acc s => acc ++ (processSectionRecursive opts headings s 0).1) [])

/-- `NoteChunker.chunk` from `src/chunking/note-chunker.ts`: the
strategy cascade. -/
def chunk (opts : ChunkingOptions) (content : Str) : List Chunk :=
  let lines := splitLines content
  let wordCount := countWords content
  if wordCount < opts.minWords then createSingleChunk content lines
  else if opts.splitAtHeadings ∧ parseHeadings content ≠ [] then
    chunkByHeadings opts lines (parseHeadings content)
  else
    let paragraphs := splitIntoParagraphs content
    if 3 ≤ paragraphs.length then chunkByParagraphs opts.maxWords paragraphs
    else
      let sentences := splitIntoSentences content
      if 3 ≤ sentences.length then chunkBySentences opts.maxWords sentences
      else createSingleChunk content lines

end BlueNotes.NoteChunker

namespace BlueNotes

/-- `map.set(k, v)` / `obj[k] = v`: replace the value stored under `k`,
or append a new binding when the key is absent (JavaScript objects and
`Map`s keep the original insertion position on overwrite). -/
def setKey {β : Type} (l : List (String × β)) (k : String) (v : β) :
    List (String × β) :=
  if (l.lookup k).isSome then
    l.map fun kv => if kv.1 = k then (k, v) else kv
  else l ++ [(k, v)]

end BlueNotes

namespace BlueNotes.EmbeddingCache

open BlueNotes.NoteChunker

/-- Per-file metadata stored alongside an embedding entry. -/
structure Metadata where
  wordCount : Nat
  tags : List String
  folder : String
  deriving DecidableEq, Repr

/-- `ChunkEmbedding` from `src/embeddings/cache.ts`. -/
structure ChunkEmbedding where
  chunkId : Str
  vector : List ℚ
  chunk : Chunk
  deriving DecidableEq, Repr

/-- `ChunkedEmbeddingEntry` from `src/embeddings/cache.ts`. -/
structure ChunkedEmbeddingEntry where
  fileHash : String
  timestamp : Nat
  metadata : Metadata
  chunks : List ChunkEmbedding
  deriving DecidableEq, Repr

/-- `CacheData` from `src/embeddings/cache.ts`; the `embeddings` object
is an association list preserving insertion order. -/
structure CacheData where
  version : String
  model : String
  created : Nat
  embeddings : List (String × ChunkedEmbeddingEntry)
  deriving DecidableEq, Repr

/-- `createEmptyCache` from `src/embeddings/cache.ts`: note that the
`model` field is the hard-coded constant `'multilingual-e5-small'`,
independent of whichever embedding model is active. -/
def createEmptyCache (now : Nat) : CacheData :=
  { version := "1.0.0"
    model := "multilingual-e5-small"
    created := now
    embeddings := [] }

/-- The `EmbeddingCache` constructor from `src/embeddings/cache.ts`:
`cacheDir = path.join(pluginDataDir, 'cache')` and
`cacheFilePath = path.join(cacheDir, 'embeddings.json')` (`path.join`
modelled as `/`-concatenation).  The constructor receives only
`pluginDataDir`: no model name enters the file path. -/
structure CacheHandle where
  cacheDir : String
  cacheFilePath : String
  cache : CacheData
  deriving DecidableEq, Repr

/-- Build a cache handle as the constructor does. -/
def mkEmbeddingCache (pluginDataDir : String) (now : Nat) : CacheHandle :=
  { cacheDir := pluginDataDir ++ "/cache"
    cacheFilePath := pluginDataDir ++ "/cache" ++ "/embeddings.json"
    cache := createEmptyCache now }

/-- `EmbeddingCache.get`: the cached chunks, provided the stored
`fileHash` equals `contentHash`; `null` is `none`.  (A cache hit with an
empty chunk array is still a hit: in the caller `if (cached)` an empty
array is truthy.) -/
def get (cache : CacheData) (filePath : String) (contentHash : String) :
    Option (List ChunkEmbedding) :=
  match cache.embeddings.lookup filePath with
  | none => none
  | some entry =>
    if entry.fileHash = contentHash then some entry.chunks else none

/-- `EmbeddingCache.set`: replace the whole entry for `filePath`. -/
def set (cache : CacheData) (filePath : String) (chunks : List ChunkEmbedding)
    (contentHash : String) (now : Nat) (metadata : Metadata) : CacheData :=
  { cache with
    embeddings := setKey cache.embeddings filePath
      { fileHash := contentHash, timestamp := now
        metadata := metadata, chunks := chunks } }

/-- `EmbeddingCache.has`. -/
def hasEntry (cache : CacheData) (filePath : String) (contentHash : String) :
    Bool :=
  (get cache filePath contentHash).isSome

/-- `EmbeddingCache.remove`. -/
def remove (cache : CacheData) (filePath : String) : CacheData :=
  { cache with embeddings := cache.embeddings.filter (fun kv => kv.1 ≠ filePath) }

/-- `getAllChunksFlattened`: denormalise the per-document map into one
array in insertion order. -/
def getAllChunksFlattened (cache : CacheData) :
    List (String × ChunkEmbedding × Metadata) :=
  cache.embeddings.flatMap fun (filePath, entry) =>
    entry.chunks.map fun ce => (filePath, ce, entry.metadata)

end BlueNotes.EmbeddingCache

namespace BlueNotes.BatchProcessor

/-- `BatchConfig` from `src/embeddings/batch-processor.ts`, after the
constructor has applied the `targetBatchTimeMs: 10000` default. -/
structure BatchConfig where
  batchSize : Nat
  adaptiveBatching : Bool
  targetBatchTimeMs : ℚ := 10000
  deriving DecidableEq, Repr

/-- Slices of `k` consecutive items: the loop
`for (i = 0; i < n; i += k) push(items.slice(i, i + k))`.
The `k = 0` branch returns `[]`; it is unreachable under the positivity
hypothesis of the theorems below (with `k = 0` the JavaScript loop would
not terminate). -/
def chunksOf {α : Type} (k : Nat) : List α → List (List α)
  | [] => []
  | x :: xs =>
    if h : k = 0 then []
    else
      have : ((x :: xs).drop k).length < (x :: xs).length := by
        simp only [List.length_drop, List.length_cons]
        omega
      (x :: xs).take k :: chunksOf k ((x :: xs).drop k)
termination_by l => l.length

/-- `createFixedBatches`. -/
def createFixedBatches {α : Type} (cfg : BatchConfig) (items : List α) :
    List (List α) :=
  chunksOf cfg.batchSize items

/-- The adaptive batch size
`Math.max(5, Math.min(50, Math.floor(targetTime / avgProcessingTime)))`. -/
def adaptiveBatchSize (cfg : BatchConfig) (avg : ℚ) : Nat :=
  (max 5 (min 50 ⌊cfg.targetBatchTimeMs / avg⌋)).toNat

/-- `createAdaptiveBatches`. -/
def createAdaptiveBatches {α : Type} (cfg : BatchConfig) (items : List α)
    (avg : ℚ) : List (List α) :=
  chunksOf (adaptiveBatchSize cfg avg) items

/-- `createBatches` from `src/embeddings/batch-processor.ts`.  The guard
is `!config.adaptiveBatching || !avgProcessingTime`: an absent average is
`none`, and an average of `0` is falsy in JavaScript, so both select the
fixed path. -/
def createBatches {α : Type} (cfg : BatchConfig) (items : List α)
    (avgProcessingTime : Option ℚ) : List (List α) :=
  match avgProcessingTime with
  | none => createFixedBatches cfg items
  | some avg =>
    if ¬cfg.adaptiveBatching ∨ avg = 0 then createFixedBatches cfg items
    else createAdaptiveBatches cfg items avg

end BlueNotes.BatchProcessor

namespace BlueNotes.ProcessingQueue

/-- A document handle: an Obsidian `TFile` restricted to the fields the
queue reads (`path`, `stat.mtime`). -/
structure QFile where
  path : String
  mtime : Nat
  deriving DecidableEq, Repr

/-- `checkForModifications` from `src/embeddings/processing-queue.ts`.
The `lastCheckedModTimes` map is threaded explicitly and returned next
to the modified-file list.  The JavaScript guard is
`!lastChecked || currentModTime > lastChecked`, where `lastChecked` is
falsy when the map has no entry or stores `0`; a file is pushed only
`if (lastChecked)`, i.e. when a non-zero previous timestamp existed. -/
def checkForModifications (st : List (String × Nat)) :
    List QFile → List QFile × List (String × Nat)
  | [] => ([], st)
  | f :: fs =>
    let lc := st.lookup f.path
    let enter := match lc with
      | none => true
      | some v => v = 0 ∨ v < f.mtime
    if enter then
      let truthy := match lc with
        | none => false
        | some v => v ≠ 0
      let r := checkForModifications (setKey st f.path f.mtime) fs
      (if truthy then f :: r.1 else r.1, r.2)
    else
      checkForModifications st fs

end BlueNotes.ProcessingQueue

namespace BlueNotes.FileProcessor

open BlueNotes.MarkdownParser

/-- The backtick character. -/
def btick : Char := Char.ofNat 96

/-- First index at which `pat` occurs in `s` as a contiguous substring. -/
def findSubstr (pat : Str) (s : Str) : Option Nat :=
  match s with
  | [] => if pat = [] then some 0 else none
  | _ :: rest =>
    if pat.isPrefixOf s then some 0
    else (findSubstr pat rest).map (· + 1)

/-- A non-empty pattern is only found in a non-empty string. -/
theorem findSubstr_ne_nil {pat s : Str} {i : Nat}
    (h : findSubstr pat s = some i) (hp : pat ≠ []) : s ≠ [] := by
  intro hs
  subst hs
  simp only [findSubstr, if_neg hp] at h
  exact Option.noConfusion h

/-- `content.replace(/^---\n[\s\S]*?\n---\n/, '')`: strip a leading
frontmatter block.  The non-greedy body means the match closes at the
first occurrence of `"\n---\n"` at index ≥ 4. -/
def stripFrontmatter (s : Str) : Str :=
  if (str "---\n").isPrefixOf s then
    match findSubstr (str "\n---\n") (s.drop 4) with
    | some k => s.drop (4 + k + 5)
    | none => s
  else s

/-- `content.replace(/```[\s\S]*?```/g, '')` (fence = three backticks):
delete every non-greedily matched fenced block, scanning left to
right. -/
def stripFencesF : Nat → Str → Str
  | _, [] => []
  | 0, s => s
  | fuel + 1, c :: rest =>
    let s := c :: rest
    let fence := [btick, btick, btick]
    match findSubstr fence s with
    | none => s
    | some i =>
      match findSubstr fence (s.drop (i + 3)) with
      | none => s
      | some j => s.take i ++ stripFencesF fuel (s.drop (i + 3 + j + 3))

/-- Every removed block spans at least six characters, so
`fuel = s.length` never runs out. -/
def stripFences (s : Str) : Str := stripFencesF s.length s

/-- `content.replace(/`[^`]+`/g, '')`: delete inline code spans (a
backtick, one or more non-backticks, a backtick); an unclosed backtick
is kept and scanning resumes after it. -/
def stripInlineCodeF : Nat → Str → Str
  | _, [] => []
  | 0, s => s
  | fuel + 1, c :: rest =>
    if c = btick then
      if (rest.takeWhile (· ≠ btick)) ≠ [] ∧
          (rest.takeWhile (· ≠ btick)).length < rest.length then
        stripInlineCodeF fuel (rest.drop ((rest.takeWhile (· ≠ btick)).length + 1))
      else c :: stripInlineCodeF fuel rest
    else c :: stripInlineCodeF fuel rest

/-- Every step consumes at least one character, so `fuel = s.length`
never runs out. -/
def stripInlineCode (s : Str) : Str := stripInlineCodeF s.length s

/-- `content.replace(/\[([^\]]+)\]\(([^\)]+)\)/g, '$1')`: replace a
markdown link by its text; on a failed match the scan resumes one
character later, exactly as the regex engine does. -/
def stripLinksF : Nat → Str → Str
  | _, [] => []
  | 0, s => s
  | fuel + 1, c :: rest =>
    if c = '[' then
      if (rest.takeWhile (· ≠ ']')) ≠ [] ∧
          (rest.takeWhile (· ≠ ']')).length < rest.length then
        match rest.drop ((rest.takeWhile (· ≠ ']')).length + 1) with
        | '(' :: rest2 =>
          if (rest2.takeWhile (· ≠ ')')) ≠ [] ∧
              (rest2.takeWhile (· ≠ ')')).length < rest2.length then
            rest.takeWhile (· ≠ ']') ++
              stripLinksF fuel (rest2.drop ((rest2.takeWhile (· ≠ ')')).length + 1))
          else c :: stripLinksF fuel rest
        | _ => c :: stripLinksF fuel rest
      else c :: stripLinksF fuel rest
    else c :: stripLinksF fuel rest

/-- Every step consumes at least one character, so `fuel = s.length`
never runs out. -/
def stripLinks (s : Str) : Str := stripLinksF s.length s

/-- `content.replace(/[*_~#]/g, '')`. -/
def stripPunct (s : Str) : Str :=
  s.filter fun c => ¬(c = '*' ∨ c = '_' ∨ c = '~' ∨ c = '#')

/-- `FileProcessor.cleanMarkdown` from `src/utils/file-processor.ts`:
frontmatter, fenced code, inline code, link targets and emphasis/heading
markers removed, whitespace collapsed, trimmed. -/
def cleanMarkdown (content : Str) : Str :=
  jsTrim (collapseWs (stripPunct (stripLinks (stripInlineCode
    (stripFences (stripFrontmatter content))))))

end BlueNotes.FileProcessor

namespace BlueNotes.EmbeddingProcessor

open BlueNotes.MarkdownParser BlueNotes.NoteChunker BlueNotes.EmbeddingCache

/-- The outcome of one `processFile` call: the returned boolean
(`true` = newly embedded, `false` = served from cache), the cache state
after the call, and the number of `provider.embed` calls made. -/
structure ProcOutcome where
  newlyEmbedded : Bool
  cache : CacheData
  providerCalls : Nat
  deriving DecidableEq, Repr

/-- `EmbeddingProcessor.processFile` from `src/embeddings/processor.ts`.

The external collaborators are passed as functions: `digest` stands for
`ContentUtils.computeHash` (SHA-256 of the cleaned text — an opaque
deterministic digest from the `crypto` library, modelled as an arbitrary
function), `embed` for `provider.embed`, and `meta` for the result of
`fileProcessor.extractMetadata`.  `fileProcessor.extractText` is
`cleanMarkdown` applied to the raw file content.  A thrown error is
`Except.error`. -/
def processFile (digest : Str → String) (embed : Str → List ℚ) (now : Nat)
    (meta : Metadata) (minWordCount : Nat) (cache : CacheData)
    (path : String) (raw : Str) (skipMinWordCheck : Bool := false) :
    Except String ProcOutcome :=
  let content := FileProcessor.cleanMarkdown raw
  let contentHash := digest content
  match EmbeddingCache.get cache path contentHash with
  | some _ => .ok ⟨false, cache, 0⟩
  | none =>
    let wordCount := countWords content
    if ¬skipMinWordCheck ∧ wordCount < minWordCount then
      .error "file below minimum word count"
    else
      let chunks := chunk DEFAULT_CHUNKING_OPTIONS content
      let chunkEmbeddings := chunks.map fun ch =>
        ChunkEmbedding.mk ch.chunkId (embed ch.content) ch
      .ok ⟨true, EmbeddingCache.set cache path chunkEmbeddings contentHash now meta,
           chunks.length⟩

end BlueNotes.EmbeddingProcessor

namespace BlueNotes.SemanticSearch

open BlueNotes.NoteChunker BlueNotes.EmbeddingCache

/-- One element of `cache.getAllChunksFlattened()`. -/
structure CachedItem where
  filePath : String
  chunkId : Str
  vector : List ℚ
  chunk : Chunk
  metadata : Metadata
  deriving DecidableEq, Repr

/-- A `ChunkSearchResult` (the fields the ranking loop writes). -/
structure SearchResult where
  filePath : String
  chunkId : Str
  chunk : Chunk
  similarity : ℚ
  metadata : Metadata
  deriving DecidableEq, Repr

/-- JavaScript truthiness of an optional string option
(absent and `''` are falsy). -/
def truthyOptStr : Option String → Bool
  | none => false
  | some s => s ≠ ""

/-- The tag filter: reject when a non-empty tag list was supplied and no
query tag appears among the item's tags (`tags && tags.length > 0` and
`!hasTag` in the source). -/
def tagFilterRejects (tags : Option (List String)) (itemTags : List String) :
    Bool :=
  match tags with
  | some ts => ts ≠ [] && ! ts.any (fun t => itemTags.contains t)
  | none => false

/-- The scoring loop of `SemanticSearch.search`
(`src/search/semantic-search.ts`): folder-prefix filter, tag
intersection filter, similarity computation and the threshold test, plus
the `getAbstractFileByPath` existence check.  `sim` is the cosine
similarity against the fixed query embedding, a function of the
candidate's vector (cosine similarity itself computes over IEEE floats
in an external helper and is abstracted here); `isFile` models which
paths resolve to a `TFile` in the vault. -/
def scanCandidates (sim : List ℚ → ℚ) (folder : Option String)
    (tags : Option (List String)) (isFile : String → Bool) (threshold : ℚ)
    (items : List CachedItem) : List SearchResult :=
  items.filterMap fun item =>
    if truthyOptStr folder ∧ ¬(folder.getD "").isPrefixOf item.filePath then
      none
    else if tagFilterRejects tags item.metadata.tags then
      none
    else
      let s := sim item.vector
      if s < threshold then none
      else if isFile item.filePath then
        some ⟨item.filePath, item.chunkId, item.chunk, s, item.metadata⟩
      else none

/-- Stable insertion of a result into a descending-sorted list: the new
element (earlier in scan order) goes before every element of equal
similarity, matching the stable `Array.prototype.sort` with comparator
`(a, b) => b.similarity - a.similarity`. -/
def sortInsert (x : SearchResult) : List SearchResult → List SearchResult
  | [] => [x]
  | y :: ys =>
    if y.similarity ≤ x.similarity then x :: y :: ys
    else y :: sortInsert x ys

/-- Stable descending sort by similarity. -/
def sortResults : List SearchResult → List SearchResult
  | [] => []
  | x :: xs => sortInsert x (sortResults xs)

/-- `SemanticSearch.search` after the query has been embedded: scan all
cached chunks, sort descending by similarity, truncate to `limit`.
(The early `return []` for an empty cache coincides with the general
path on `[]`.) -/
def search (sim : List ℚ → ℚ) (folder : Option String)
    (tags : Option (List String)) (isFile : String → Bool) (threshold : ℚ)
    (limit : Nat) (items : List CachedItem) : List SearchResult :=
  match items with
  | [] => []
  | _ :: _ =>
    (sortResults (scanCandidates sim folder tags isFile threshold items)).take limit

end BlueNotes.SemanticSearch

namespace BlueNotes

/-- Replacing in place stores the new value: `lookup` after the `map`
branch of `setKey`. -/
theorem lookup_map_replace {β : Type} (k : String) (v : β) :
    ∀ l : List (String × β), (l.lookup k).isSome →
      ((l.map fun kv => if kv.1 = k then (k, v) else kv).lookup k) = some v := by
  intro l
  induction l with
  | nil => simp
  | cons kv rest ih =>
    obtain ⟨a, b⟩ := kv
    intro hs
    by_cases hak : a = k
    · subst hak
      simp [List.lookup_cons]
    · have hka : (k == a) = false := by
        simp [BEq.beq]
        exact fun hk => hak hk.symm
      simp only [List.lookup_cons, hka] at hs
      simp [List.lookup_cons, hak, hka]
      exact ih hs

/-- `lookup` after appending a fresh binding at the end. -/
theorem lookup_append_fresh {β : Type} (k : String) (v : β) :
    ∀ l : List (String × β), l.lookup k = none →
      ((l ++ [(k, v)]).lookup k) = some v := by
  intro l
  induction l with
  | nil => simp [List.lookup_cons]
  | cons kv rest ih =>
    obtain ⟨a, b⟩ := kv
    intro hn
    by_cases hka : (k == a) = true
    · simp only [List.lookup_cons, hka] at hn
      exact Option.noConfusion hn
    · have hka' : (k == a) = false := by simpa using hka
      simp only [List.lookup_cons, hka'] at hn
      simp only [List.cons_append, List.lookup_cons, hka']
      exact ih hn

/-- `setKey` stores the given value under the given key. -/
theorem lookup_setKey_self {β : Type} (l : List (String × β)) (k : String)
    (v : β) : (setKey l k v).lookup k = some v := by
  unfold setKey
  split_ifs with h
  · exact lookup_map_replace k v l h
  · exact lookup_append_fresh k v l (by
      cases hl : l.lookup k with
      | none => rfl
      | some w => rw [hl] at h; simp at h)

/-- The `map` branch of `setKey` leaves every other key unchanged. -/
theorem lookup_map_replace_ne {β : Type} (k k' : String) (v : β)
    (hne : k' ≠ k) :
    ∀ l : List (String × β),
      ((l.map fun kv => if kv.1 = k then (k, v) else kv).lookup k') =
        l.lookup k' := by
  intro l
  have hk'k : (k' == k) = false := by
    simp [BEq.beq]
    exact hne
  induction l with
  | nil => simp
  | cons kv rest ih =>
    obtain ⟨a, b⟩ := kv
    by_cases hak : a = k
    · subst hak
      simp [List.lookup_cons, hk'k]
      exact ih
    · by_cases hk'a : (k' == a) = true
      · simp [List.lookup_cons, hak, hk'a]
      · have hk'a' : (k' == a) = false := by simpa using hk'a
        simp [List.lookup_cons, hak, hk'a']
        exact ih

/-- Appending a binding for a different key leaves `lookup` unchanged. -/
theorem lookup_append_ne {β : Type} (k k' : String) (v : β) (hne : k' ≠ k) :
    ∀ l : List (String × β), ((l ++ [(k, v)]).lookup k') = l.lookup k' := by
  intro l
  have hk'k : (k' == k) = false := by
    simp [BEq.beq]
    exact hne
  induction l with
  | nil => simp [List.lookup_cons, hk'k]
  | cons kv rest ih =>
    obtain ⟨a, b⟩ := kv
    by_cases hk'a : (k' == a) = true
    · simp only [List.cons_append, List.lookup_cons, hk'a]
    · have hk'a' : (k' == a) = false := by simpa using hk'a
      simp only [List.cons_append, List.lookup_cons, hk'a']
      exact ih

/-- `setKey` leaves every other key unchanged. -/
theorem lookup_setKey_ne {β : Type} (l : List (String × β)) (k k' : String)
    (v : β) (hne : k' ≠ k) : (setKey l k v).lookup k' = l.lookup k' := by
  unfold setKey
  split_ifs with h
  · exact lookup_map_replace_ne k k' v hne l
  · exact lookup_append_ne k k' v hne l


end BlueNotes

namespace BlueNotes.EmbeddingCache

/-- Round trip: `get` after `set` with the same hash yields the stored
chunks. -/
theorem get_set_self (cache : CacheData) (path : String)
    (chunks : List ChunkEmbedding) (hash : String) (now : Nat)
    (meta : Metadata) :
    get (set cache path chunks hash now meta) path hash = some chunks := by
  simp [get, set, lookup_setKey_self]

/-- `get` after `set` with any other hash misses. -/
theorem get_set_other_hash (cache : CacheData) (path : String)
    (chunks : List ChunkEmbedding) (hash hash' : String) (now : Nat)
    (meta : Metadata) (hne : hash' ≠ hash) :
    get (set cache path chunks hash now meta) path hash' = none := by
  simp [get, set, lookup_setKey_self]
  exact fun hc => absurd hc.symm hne

end BlueNotes.EmbeddingCache

namespace BlueNotes.EmbeddingProcessor

open BlueNotes.EmbeddingCache BlueNotes.FileProcessor

/-- After a `processFile` call that returned `true`, any further call on
a document with the same cleaned text is served from the cache: it
returns `false`, makes no provider calls, and leaves the cache
untouched. -/
theorem processFile_after_ok (digest : Str → String) (embed : Str → List ℚ)
    (now now' : Nat) (meta meta' : Metadata) (minWordCount : Nat)
    (cache : CacheData) (path : String) (raw raw' : Str) (skip skip' : Bool)
    (o : ProcOutcome)
    (h : processFile digest embed now meta minWordCount cache path raw skip = .ok o)
    (ht : o.newlyEmbedded = true)
    (hclean : cleanMarkdown raw' = cleanMarkdown raw) :
    processFile digest embed now' meta' minWordCount o.cache path raw' skip' =
      .ok ⟨false, o.cache, 0⟩ := by
  simp only [processFile] at h ⊢
  rw [hclean]
  cases hget : EmbeddingCache.get cache path (digest (cleanMarkdown raw)) with
  | some cs =>
    rw [hget] at h
    dsimp only at h
    cases h
    simp at ht
  | none =>
    rw [hget] at h
    dsimp only at h
    split_ifs at h with hmin <;>
      first
        | exact Except.noConfusion h
        | (cases h; rw [get_set_self])

end BlueNotes.EmbeddingProcessor

namespace BlueNotes.Claims

open BlueNotes.MarkdownParser BlueNotes.NoteChunker BlueNotes.EmbeddingCache
open BlueNotes.EmbeddingProcessor BlueNotes.FileProcessor
open BlueNotes.BatchProcessor BlueNotes.ProcessingQueue BlueNotes.SemanticSearch

/-- C3: the claim states that the on-disk storage location of an
`EmbeddingCache` instance is keyed by the model name.  In the code the
constructor receives only `pluginDataDir` and always stores at
`<pluginDataDir>/cache/embeddings.json`, and `createEmptyCache`
hard-codes the `model` field: the location is one shared constant for
every model, so entries written for one model land in (and overwrite)
the same file as any other model's.  This theorem evaluates the
constructor: the path is model-independent and equal to the single
constant, exhibiting the divergence from the claim. -/
theorem c3_cache_location_single_file :
    (∀ (dir : String) (now now' : Nat),
      (mkEmbeddingCache dir now).cacheFilePath =
        (mkEmbeddingCache dir now').cacheFilePath) ∧
    (mkEmbeddingCache "data" 0).cacheFilePath = "data/cache/embeddings.json" ∧
    (createEmptyCache 0).model = "multilingual-e5-small" := by
  refine ⟨fun dir now now' => rfl, ?_, rfl⟩
  decide

/-- C5: cache round trip and invalidation.  `set(path, chunks, hash,
meta)` followed by `get(path, hash)` returns exactly `chunks`;
`get(path, hash')` for any other hash returns `null`; and after
re-setting the same path with a new hash, `get` with the old hash
returns `null`. -/
theorem c5_cache_roundtrip_invalidation
    (cache : CacheData) (path : String)
    (chunks chunks2 : List ChunkEmbedding) (hash hash' newHash : String)
    (now now2 : Nat) (meta meta2 : Metadata)
    (hne : hash' ≠ hash) (hnew : hash ≠ newHash) :
    get (set cache path chunks hash now meta) path hash = some chunks ∧
    get (set cache path chunks hash now meta) path hash' = none ∧
    get (set (set cache path chunks hash now meta) path chunks2 newHash now2 meta2)
        path hash = none := by
  refine ⟨get_set_self .., get_set_other_hash _ _ _ _ _ _ _ hne,
    get_set_other_hash _ _ _ _ _ _ _ hnew⟩

/-- Witness for C5 at concrete inputs. -/
theorem c5_witness :
    (("h2" : String) ≠ "h1" ∧ ("h1" : String) ≠ "h3") ∧
    (get (set (createEmptyCache 0) "a.md" [] "h1" 1 ⟨0, [], ""⟩) "a.md" "h1"
        = some [] ∧
      get (set (createEmptyCache 0) "a.md" [] "h1" 1 ⟨0, [], ""⟩) "a.md" "h2"
        = none ∧
      get (set (set (createEmptyCache 0) "a.md" [] "h1" 1 ⟨0, [], ""⟩)
            "a.md" [] "h3" 2 ⟨0, [], ""⟩) "a.md" "h1" = none) :=
  ⟨⟨by decide, by decide⟩,
    c5_cache_roundtrip_invalidation (createEmptyCache 0) "a.md" [] []
      "h1" "h2" "h3" 1 2 ⟨0, [], ""⟩ ⟨0, [], ""⟩ (by decide) (by decide)⟩

/-- C7: `processFile` is idempotent on an unchanged document: after a
successful call that returned `true`, a second call on the same content
returns `false`, performs no embedding-provider calls, and leaves the
cache unchanged. -/
theorem c7_processFile_idempotent (digest : Str → String)
    (embed : Str → List ℚ) (now now' : Nat) (meta meta' : Metadata)
    (minWordCount : Nat) (cache : CacheData) (path : String) (raw : Str)
    (skip skip' : Bool) (o : ProcOutcome)
    (h : processFile digest embed now meta minWordCount cache path raw skip = .ok o)
    (ht : o.newlyEmbedded = true) :
    processFile digest embed now' meta' minWordCount o.cache path raw skip' =
      .ok ⟨false, o.cache, 0⟩ :=
  processFile_after_ok digest embed now now' meta meta' minWordCount cache
    path raw raw skip skip' o h ht rfl

/-- C10: the content hash is computed over the cleaned text, not the
raw bytes: two raw documents with the same cleaned text get the same
hash, and after processing one of them the other is served from the
cache (returns `false`, no provider calls, cache unchanged). -/
theorem c10_hash_over_cleaned_text (digest : Str → String)
    (embed : Str → List ℚ) (now now' : Nat) (meta meta' : Metadata)
    (minWordCount : Nat) (cache : CacheData) (path : String)
    (raw1 raw2 : Str) (skip skip' : Bool) (o : ProcOutcome)
    (hclean : cleanMarkdown raw1 = cleanMarkdown raw2)
    (h : processFile digest embed now meta minWordCount cache path raw1 skip = .ok o)
    (ht : o.newlyEmbedded = true) :
    digest (cleanMarkdown raw1) = digest (cleanMarkdown raw2) ∧
    processFile digest embed now' meta' minWordCount o.cache path raw2 skip' =
      .ok ⟨false, o.cache, 0⟩ :=
  ⟨congrArg digest hclean,
    processFile_after_ok digest embed now now' meta meta' minWordCount cache
      path raw1 raw2 skip skip' o h ht hclean.symm⟩

end BlueNotes.Claims

namespace BlueNotes.ProcessingQueue

/-- Paths not mentioned in the checked list keep their recorded
timestamp. -/
theorem check_state_lookup_notmem (p : String) :
    ∀ (fs : List QFile) (st : List (String × Nat)),
      p ∉ fs.map QFile.path →
      (checkForModifications st fs).2.lookup p = st.lookup p := by
  intro fs
  induction fs with
  | nil => intro st _; rfl
  | cons f fs ih =>
    intro st hp
    have hpf : p ≠ f.path := by
      intro he
      exact hp (by simp [he])
    have hpfs : p ∉ fs.map QFile.path := by
      intro hm
      exact hp (by simp [hm])
    simp only [checkForModifications]
    split_ifs with henter
    all_goals
      first
        | exact ih st hpfs
        | (dsimp only
           rw [ih (setKey st f.path f.mtime) hpfs]
           exact lookup_setKey_ne st f.path p f.mtime hpf)

/-- The JavaScript modification predicate of one item against a recorded
state, as a `Bool`: the recorded timestamp strictly increased. -/
def modifiedNow (st : List (String × Nat)) (f : QFile) : Bool :=
  match st.lookup f.path with
  | some v => decide (v < f.mtime)
  | none => false

/-- On positive timestamps and duplicate-free item lists,
`checkForModifications` returns exactly the items whose timestamp
strictly increased since their previous check. -/
theorem check_returned_eq :
    ∀ (fs : List QFile) (st : List (String × Nat)),
      (∀ p v, st.lookup p = some v → 0 < v) →
      (∀ f ∈ fs, 0 < f.mtime) →
      ((fs.map QFile.path).Nodup) →
      (checkForModifications st fs).1 = fs.filter (modifiedNow st) := by
  intro fs
  induction fs with
  | nil => intro st _ _ _; rfl
  | cons f fs ih =>
    intro st hpos hmt hnd
    have hfp : f.path ∉ fs.map QFile.path := by
      simp only [List.map_cons, List.nodup_cons] at hnd
      exact hnd.1
    have hnd2 : (fs.map QFile.path).Nodup := by
      simp only [List.map_cons, List.nodup_cons] at hnd
      exact hnd.2
    have hmt2 : ∀ g ∈ fs, 0 < g.mtime := fun g hg => hmt g (by simp [hg])
    have hpos2 : ∀ p v, (setKey st f.path f.mtime).lookup p = some v → 0 < v := by
      intro p v hv
      by_cases hpf : p = f.path
      · subst hpf
        rw [lookup_setKey_self] at hv
        cases hv
        exact hmt f (by simp)
      · rw [lookup_setKey_ne st f.path p f.mtime hpf] at hv
        exact hpos p v hv
    have hfilter_eq :
        fs.filter (modifiedNow (setKey st f.path f.mtime)) =
          fs.filter (modifiedNow st) :=
      List.filter_congr fun g hg => by
        unfold modifiedNow
        rw [lookup_setKey_ne st f.path g.path f.mtime
          (fun he => hfp (he ▸ List.mem_map_of_mem QFile.path hg))]
    cases hlc : st.lookup f.path with
    | none =>
      have hcond : modifiedNow st f = false := by
        unfold modifiedNow
        rw [hlc]
      have hstep :
          (checkForModifications st (f :: fs)).1 =
            (checkForModifications (setKey st f.path f.mtime) fs).1 := by
        simp [checkForModifications, hlc]
      rw [hstep, ih _ hpos2 hmt2 hnd2, hfilter_eq, List.filter_cons, hcond]
      simp
    | some v =>
      have hv0 : 0 < v := hpos f.path v hlc
      have hvne : v ≠ 0 := by omega
      by_cases hlt : v < f.mtime
      · have hcond : modifiedNow st f = true := by
          unfold modifiedNow
          rw [hlc]
          simpa using hlt
        have hstep :
            (checkForModifications st (f :: fs)).1 =
              f :: (checkForModifications (setKey st f.path f.mtime) fs).1 := by
          simp [checkForModifications, hlc, hlt, hvne]
        rw [hstep, ih _ hpos2 hmt2 hnd2, hfilter_eq, List.filter_cons, hcond]
        simp
      · have hcond : modifiedNow st f = false := by
          unfold modifiedNow
          rw [hlc]
          simpa using hlt
        have hstep :
            (checkForModifications st (f :: fs)).1 =
              (checkForModifications st fs).1 := by
          simp [checkForModifications, hlc, hlt, hvne]
        rw [hstep, ih st hpos hmt2 hnd2, List.filter_cons, hcond]
        simp

end BlueNotes.ProcessingQueue

namespace BlueNotes.ProcessingQueue

/-- A first-observed item gets its timestamp recorded. -/
theorem check_state_first_obs :
    ∀ (fs : List QFile) (st : List (String × Nat)),
      ((fs.map QFile.path).Nodup) →
      ∀ f ∈ fs, st.lookup f.path = none →
      (checkForModifications st fs).2.lookup f.path = some f.mtime := by
  intro fs
  induction fs with
  | nil => intro st _ f hf; exact absurd hf (by simp)
  | cons g gs ih =>
    intro st hnd f hf hnone
    have hgp : g.path ∉ gs.map QFile.path := by
      simp only [List.map_cons, List.nodup_cons] at hnd
      exact hnd.1
    have hnd2 : (gs.map QFile.path).Nodup := by
      simp only [List.map_cons, List.nodup_cons] at hnd
      exact hnd.2
    rcases List.mem_cons.mp hf with hfg | hfgs
    · subst hfg
      have hstep :
          (checkForModifications st (f :: gs)).2 =
            (checkForModifications (setKey st f.path f.mtime) gs).2 := by
        simp [checkForModifications, hnone]
      rw [hstep, check_state_lookup_notmem f.path gs _ hgp,
        lookup_setKey_self]
    · have hne : f.path ≠ g.path := by
        intro he
        exact hgp (he ▸ List.mem_map_of_mem QFile.path hfgs)
      cases hg : st.lookup g.path with
      | none =>
        have hstep :
            (checkForModifications st (g :: gs)).2 =
              (checkForModifications (setKey st g.path g.mtime) gs).2 := by
          simp [checkForModifications, hg]
        rw [hstep]
        exact ih (setKey st g.path g.mtime) hnd2 f hfgs
          (by rw [lookup_setKey_ne st g.path f.path g.mtime hne]; exact hnone)
      | some v =>
        by_cases henter : v = 0 ∨ v < g.mtime
        · have hstep :
              (checkForModifications st (g :: gs)).2 =
                (checkForModifications (setKey st g.path g.mtime) gs).2 := by
            simp [checkForModifications, hg, henter]
          rw [hstep]
          exact ih (setKey st g.path g.mtime) hnd2 f hfgs
            (by rw [lookup_setKey_ne st g.path f.path g.mtime hne]; exact hnone)
        · have hstep :
              (checkForModifications st (g :: gs)).2 =
                (checkForModifications st gs).2 := by
            simp [checkForModifications, hg, henter]
          rw [hstep]
          exact ih st hnd2 f hfgs hnone

end BlueNotes.ProcessingQueue

namespace BlueNotes.Claims

open BlueNotes.ProcessingQueue

/-- C8 as amended: on item lists with pairwise-distinct paths and
positive modification timestamps (with every already-recorded timestamp
positive as well), `checkForModifications` returns exactly the items
whose timestamp strictly increased since the previous check of that
item, and a first-observed item is recorded but not returned. -/
theorem c8_amended (st : List (String × Nat)) (files : List QFile)
    (hpos : ∀ p v, st.lookup p = some v → 0 < v)
    (hmt : ∀ f ∈ files, 0 < f.mtime)
    (hnd : (files.map QFile.path).Nodup) :
    (checkForModifications st files).1 = files.filter (modifiedNow st) ∧
    (∀ f ∈ files, st.lookup f.path = none →
      (checkForModifications st files).2.lookup f.path = some f.mtime ∧
      f ∉ (checkForModifications st files).1) := by
  refine ⟨check_returned_eq files st hpos hmt hnd, fun f hf hnone => ?_⟩
  refine ⟨check_state_first_obs files st hnd f hf hnone, fun hmem => ?_⟩
  rw [check_returned_eq files st hpos hmt hnd] at hmem
  have := List.of_mem_filter hmem
  unfold modifiedNow at this
  rw [hnone] at this
  exact Bool.noConfusion this

/-- Witness for C8 (amended) at concrete inputs: with `b.md` previously
recorded at time 3, the check of `a.md` (new, time 5) and `b.md`
(modified, time 7) returns exactly `b.md`, and `a.md` is recorded but
not returned. -/
theorem c8_witness :
    ((∀ p v, List.lookup p [("b.md", 3)] = some v → 0 < v) ∧
      (∀ f ∈ [QFile.mk "a.md" 5, QFile.mk "b.md" 7], 0 < f.mtime) ∧
      (([QFile.mk "a.md" 5, QFile.mk "b.md" 7].map QFile.path).Nodup)) ∧
    (checkForModifications [("b.md", 3)]
        [QFile.mk "a.md" 5, QFile.mk "b.md" 7]).1 =
      [QFile.mk "a.md" 5, QFile.mk "b.md" 7].filter
        (modifiedNow [("b.md", 3)]) :=
  by
  have hpos : ∀ p v, List.lookup p [("b.md", 3)] = some v → 0 < v := by
    intro p v h
    rw [List.lookup_cons] at h
    cases hpb : (p == "b.md") <;> rw [hpb] at h
    · simp at h
    · simp at h
      omega
  exact ⟨⟨hpos, by decide, by decide⟩,
    (c8_amended [("b.md", 3)] [QFile.mk "a.md" 5, QFile.mk "b.md" 7]
      hpos (by decide) (by decide)).1⟩

/-- C8 counterexample to the original claim: an item first observed with
modification timestamp 0 and then seen with timestamp 5 has strictly
increased since the previous check of that item, yet the second call
returns the empty list — the recorded `0` is falsy in the JavaScript
guard `!lastChecked`, so the item is treated as first-observed again. -/
theorem c8_counterexample :
    (checkForModifications [] [QFile.mk "a.md" 0]).1 = [] ∧
    (checkForModifications [] [QFile.mk "a.md" 0]).2.lookup "a.md" = some 0 ∧
    (0 : Nat) < 5 ∧
    (checkForModifications (checkForModifications [] [QFile.mk "a.md" 0]).2
        [QFile.mk "a.md" 5]).1 = [] := by
  refine ⟨by decide, by decide, by decide, by decide⟩

end BlueNotes.Claims

namespace BlueNotes.Claims

open BlueNotes.EmbeddingCache BlueNotes.EmbeddingProcessor BlueNotes.FileProcessor

/-- A concrete digest standing in for SHA-256 in the witnesses. -/
def wDigest : Str → String := fun s => s.asString

/-- A concrete embedding provider for the witnesses. -/
def wEmbed : Str → List ℚ := fun _ => [1, 0]

/-- Concrete metadata for the witnesses. -/
def wMeta : Metadata := ⟨3, [], ""⟩

/-- Concrete raw document for the C7 witness. -/
def wRaw : Str := str "hello *world*"

/-- The outcome of the first C7 `processFile` call. -/
def wOut : ProcOutcome :=
  match processFile wDigest wEmbed 10 wMeta 2 (createEmptyCache 0) "n.md" wRaw false with
  | .ok o => o
  | .error _ => ⟨false, createEmptyCache 0, 0⟩

/-- Witness for C7 at concrete inputs. -/
theorem c7_witness :
    processFile wDigest wEmbed 11 wMeta 2 wOut.cache "n.md" wRaw false =
      .ok ⟨false, wOut.cache, 0⟩ :=
  c7_processFile_idempotent wDigest wEmbed 10 11 wMeta wMeta 2
    (createEmptyCache 0) "n.md" wRaw false false wOut (by rfl) (by rfl)

/-- The outcome of the first C10 `processFile` call (on `a *b* c`). -/
def wOut10 : ProcOutcome :=
  match processFile wDigest wEmbed 10 wMeta 2 (createEmptyCache 0) "m.md"
      (str "a *b* c") false with
  | .ok o => o
  | .error _ => ⟨false, createEmptyCache 0, 0⟩

/-- Witness for C10 at concrete inputs: `a *b* c` and `a _b_ c` differ
only in stripped emphasis markers, clean to the same text, hash alike,
and the second is served from the cache filled by the first. -/
theorem c10_witness :
    cleanMarkdown (str "a *b* c") = cleanMarkdown (str "a _b_ c") ∧
    (wDigest (cleanMarkdown (str "a *b* c")) =
        wDigest (cleanMarkdown (str "a _b_ c")) ∧
      processFile wDigest wEmbed 11 wMeta 2 wOut10.cache "m.md"
          (str "a _b_ c") false = .ok ⟨false, wOut10.cache, 0⟩) :=
  ⟨by decide,
    c10_hash_over_cleaned_text wDigest wEmbed 10 11 wMeta wMeta 2
      (createEmptyCache 0) "m.md" (str "a *b* c") (str "a _b_ c") false false
      wOut10 (by decide) (by rfl) (by rfl)⟩

end BlueNotes.Claims

namespace BlueNotes.BatchProcessor

/-- Joining the slices gives back the item list (for positive `k`). -/
theorem chunksOf_join {α : Type} (k : Nat) (hk : 0 < k) :
    ∀ l : List α, (chunksOf k l).flatten = l := by
  have H : ∀ n, ∀ l : List α, l.length = n → (chunksOf k l).flatten = l := by
    intro n
    induction n using Nat.strong_induction_on with
    | _ n ih =>
      intro l hn
      cases l with
      | nil => simp [chunksOf]
      | cons x xs =>
        rw [chunksOf]
        rw [dif_neg (by omega : ¬ k = 0)]
        dsimp only
        rw [List.flatten_cons]
        rw [ih ((x :: xs).drop k).length
          (by
            simp only [List.length_cons] at hn
            simp only [List.length_drop, List.length_cons]
            omega)
          ((x :: xs).drop k) rfl]
        exact List.take_append_drop k (x :: xs)
  exact fun l => H l.length l rfl

/-- Every slice except possibly the last has exactly `k` elements (for
positive `k`). -/
theorem chunksOf_sizes {α : Type} (k : Nat) (hk : 0 < k) :
    ∀ l : List α, ∀ b ∈ (chunksOf k l).dropLast, b.length = k := by
  have H : ∀ n, ∀ l : List α, l.length = n →
      ∀ b ∈ (chunksOf k l).dropLast, b.length = k := by
    intro n
    induction n using Nat.strong_induction_on with
    | _ n ih =>
      intro l hn
      cases l with
      | nil => simp [chunksOf]
      | cons x xs =>
        rw [chunksOf]
        rw [dif_neg (by omega : ¬ k = 0)]
        intro b hb
        cases hrest : chunksOf k ((x :: xs).drop k) with
        | nil => simp [hrest] at hb
        | cons r rs =>
          rw [hrest] at hb
          rw [List.dropLast_cons₂] at hb
          rcases List.mem_cons.mp hb with hbt | hbm
          · subst hbt
            rw [List.length_take]
            have hlen : k ≤ (x :: xs).length := by
              by_contra hko
              push_neg at hko
              have hdz : (x :: xs).drop k = [] :=
                List.drop_eq_nil_of_le (by omega)
              rw [hdz] at hrest
              simp [chunksOf] at hrest
            omega
          · have hrec := ih ((x :: xs).drop k).length
              (by
                simp only [List.length_cons] at hn
                simp only [List.length_drop, List.length_cons]
                omega)
              ((x :: xs).drop k) rfl b
            rw [hrest] at hrec
            exact hrec hbm
  exact fun l => H l.length l rfl

end BlueNotes.BatchProcessor

namespace BlueNotes.BatchProcessor

/-- The adaptive batch size is always clamped into `[5, 50]`. -/
theorem adaptiveBatchSize_bounds (cfg : BatchConfig) (a : ℚ) :
    5 ≤ adaptiveBatchSize cfg a ∧ adaptiveBatchSize cfg a ≤ 50 := by
  unfold adaptiveBatchSize
  constructor
  · have h5 : (5 : ℤ) ≤ max 5 (min 50 ⌊cfg.targetBatchTimeMs / a⌋) :=
      le_max_left _ _
    omega
  · have h50 : max 5 (min 50 ⌊cfg.targetBatchTimeMs / a⌋) ≤ (50 : ℤ) :=
      max_le (by norm_num) (min_le_left _ _)
    omega

end BlueNotes.BatchProcessor

namespace BlueNotes.Claims

open BlueNotes.BatchProcessor

/-- C9: `createBatches` partitions the input list in order without loss
or duplication.  When adaptive batching is disabled or no truthy average
is supplied (`none`, or `0`, which is falsy in JavaScript), every batch
except possibly the last has the configured `batchSize`; otherwise every
batch except possibly the last has size
`clamp(floor(targetBatchTimeMs / avg), 5, 50)`, which always lies
between 5 and 50.  (`batchSize` is required to be positive: with
`batchSize = 0` the JavaScript loop would never terminate.) -/
theorem c9_createBatches {α : Type} (cfg : BatchConfig) (items : List α)
    (avg : Option ℚ) (hbs : 0 < cfg.batchSize) :
    (createBatches cfg items avg).flatten = items ∧
    ((cfg.adaptiveBatching = false ∨ avg = none ∨ avg = some 0) →
      ∀ b ∈ (createBatches cfg items avg).dropLast,
        b.length = cfg.batchSize) ∧
    (∀ a : ℚ, avg = some a → a ≠ 0 → cfg.adaptiveBatching = true →
      5 ≤ adaptiveBatchSize cfg a ∧ adaptiveBatchSize cfg a ≤ 50 ∧
      ∀ b ∈ (createBatches cfg items avg).dropLast,
        b.length = adaptiveBatchSize cfg a) := by
  cases avg with
  | none =>
    simp only [createBatches, createFixedBatches]
    exact ⟨chunksOf_join cfg.batchSize hbs items,
      fun _ => chunksOf_sizes cfg.batchSize hbs items,
      fun a ha => Option.noConfusion ha⟩
  | some a =>
    by_cases hcond : ¬cfg.adaptiveBatching ∨ a = 0
    · simp only [createBatches, createFixedBatches, if_pos hcond]
      refine ⟨chunksOf_join cfg.batchSize hbs items,
        fun _ => chunksOf_sizes cfg.batchSize hbs items,
        fun a' ha' hne hadap => ?_⟩
      cases ha'
      rcases hcond with hadap' | hz
      · exact absurd hadap hadap'
      · exact absurd hz hne
    · simp only [createBatches, createAdaptiveBatches, if_neg hcond]
      have hk : 0 < adaptiveBatchSize cfg a := by
        have := (adaptiveBatchSize_bounds cfg a).1
        omega
      push_neg at hcond
      refine ⟨chunksOf_join _ hk items, fun hdis => ?_,
        fun a' ha' hne hadap => ?_⟩
      · rcases hdis with hadap' | hnone | hzero
        · rw [hadap'] at hcond
          exact Bool.noConfusion hcond.1
        · exact Option.noConfusion hnone
        · rw [Option.some.injEq] at hzero
          exact absurd hzero hcond.2
      · cases ha'
        exact ⟨(adaptiveBatchSize_bounds cfg a).1,
          (adaptiveBatchSize_bounds cfg a).2,
          chunksOf_sizes _ hk items⟩

/-- Witness for C9 at concrete inputs. -/
theorem c9_witness :
    0 < (3 : Nat) ∧
    (createBatches { batchSize := 3, adaptiveBatching := false }
        [0, 1, 2, 3, 4, 5, 6] (none : Option ℚ)).flatten =
      [0, 1, 2, 3, 4, 5, 6] :=
  ⟨by decide,
    (c9_createBatches { batchSize := 3, adaptiveBatching := false }
      [0, 1, 2, 3, 4, 5, 6] none (by decide)).1⟩

end BlueNotes.Claims

namespace BlueNotes.SemanticSearch

/-- Membership in a stable insertion. -/
theorem mem_sortInsert (x y : SearchResult) :
    ∀ l : List SearchResult, (y ∈ sortInsert x l ↔ y = x ∨ y ∈ l) := by
  intro l
  induction l with
  | nil => simp [sortInsert]
  | cons z zs ih =>
    unfold sortInsert
    split_ifs with hz
    · simp
    · simp only [List.mem_cons, ih]
      tauto

/-- Membership is preserved by the sort. -/
theorem mem_sortResults (y : SearchResult) :
    ∀ l : List SearchResult, (y ∈ sortResults l ↔ y ∈ l) := by
  intro l
  induction l with
  | nil => simp [sortResults]
  | cons z zs ih =>
    unfold sortResults
    rw [mem_sortInsert]
    simp only [List.mem_cons, ih]

/-- Stable insertion preserves the descending order. -/
theorem pairwise_sortInsert (x : SearchResult) :
    ∀ l : List SearchResult,
      l.Pairwise (fun a b => b.similarity ≤ a.similarity) →
      (sortInsert x l).Pairwise (fun a b => b.similarity ≤ a.similarity) := by
  intro l
  induction l with
  | nil => simp [sortInsert]
  | cons z zs ih =>
    intro hp
    rw [List.pairwise_cons] at hp
    unfold sortInsert
    split_ifs with hz
    · rw [List.pairwise_cons]
      refine ⟨fun b hb => ?_, List.pairwise_cons.mpr hp⟩
      rcases List.mem_cons.mp hb with hbz | hbzs
      · subst hbz
        exact hz
      · exact le_trans (hp.1 b hbzs) hz
    · rw [List.pairwise_cons]
      refine ⟨fun b hb => ?_, ih hp.2⟩
      rcases (mem_sortInsert x b zs).mp hb with hbx | hbzs
      · subst hbx
        exact le_of_not_le hz
      · exact hp.1 b hbzs

/-- The sort output is descending in similarity. -/
theorem pairwise_sortResults :
    ∀ l : List SearchResult,
      (sortResults l).Pairwise (fun a b => b.similarity ≤ a.similarity) := by
  intro l
  induction l with
  | nil => simp [sortResults]
  | cons z zs ih => exact pairwise_sortInsert z (sortResults zs) ih

/-- Stability of insertion, phrased on similarity classes: filtering any
similarity level commutes with inserting (the inserted element lands in
front of its equals, and insertion never reorders a class). -/
theorem filter_sim_sortInsert (x : SearchResult) (q : ℚ) :
    ∀ l : List SearchResult,
      (sortInsert x l).filter (fun r => decide (r.similarity = q)) =
        ((x :: l).filter (fun r => decide (r.similarity = q))) := by
  intro l
  induction l with
  | nil => rfl
  | cons z zs ih =>
    unfold sortInsert
    split_ifs with hz
    · rfl
    · have hlt : x.similarity < z.similarity := lt_of_not_le hz
      by_cases hzq : z.similarity = q
      · have hxq : ¬ x.similarity = q := by
          intro hx
          rw [hx, hzq] at hlt
          exact lt_irrefl q hlt
        simp [List.filter_cons, hzq, hxq, ih]
      · simp [List.filter_cons, hzq, ih]

/-- Stability of the sort on similarity classes. -/
theorem filter_sim_sortResults (q : ℚ) :
    ∀ l : List SearchResult,
      (sortResults l).filter (fun r => decide (r.similarity = q)) =
        l.filter (fun r => decide (r.similarity = q)) := by
  intro l
  induction l with
  | nil => rfl
  | cons z zs ih =>
    unfold sortResults
    rw [filter_sim_sortInsert, List.filter_cons, List.filter_cons, ih]

/-- Every scanned candidate passed the threshold test. -/
theorem mem_scanCandidates_threshold (sim : List ℚ → ℚ)
    (folder : Option String) (tags : Option (List String))
    (isFile : String → Bool) (threshold : ℚ) (items : List CachedItem)
    (r : SearchResult)
    (h : r ∈ scanCandidates sim folder tags isFile threshold items) :
    threshold ≤ r.similarity := by
  simp only [scanCandidates, List.mem_filterMap] at h
  obtain ⟨item, _, hf⟩ := h
  split_ifs at hf with h₁ h₂ h₃ h₄ <;>
    first
      | exact Option.noConfusion hf
      | (rw [Option.some.injEq] at hf
         subst hf
         exact le_of_not_lt (by assumption))

end BlueNotes.SemanticSearch

namespace BlueNotes.Claims

open BlueNotes.SemanticSearch

/-- C6: `search` results are sorted non-increasingly in similarity,
every returned result has `similarity ≥ threshold`, at most `limit`
results are returned, and results tied in similarity keep the cache
scan order (the returned slice of every similarity class is a prefix of
that class in scan order). -/
theorem c6_search_ranking (sim : List ℚ → ℚ) (folder : Option String)
    (tags : Option (List String)) (isFile : String → Bool) (threshold : ℚ)
    (limit : Nat) (items : List CachedItem) :
    (search sim folder tags isFile threshold limit items).Pairwise
      (fun a b => b.similarity ≤ a.similarity) ∧
    (∀ r ∈ search sim folder tags isFile threshold limit items,
      threshold ≤ r.similarity) ∧
    (search sim folder tags isFile threshold limit items).length ≤ limit ∧
    (∀ q : ℚ,
      (search sim folder tags isFile threshold limit items).filter
          (fun r => decide (r.similarity = q)) <+:
        (scanCandidates sim folder tags isFile threshold items).filter
          (fun r => decide (r.similarity = q))) := by
  cases items with
  | nil =>
    refine ⟨by simp [search], by simp [search], by simp [search],
      fun q => ?_⟩
    simp only [search, List.filter_nil]
    exact List.nil_prefix
  | cons it its =>
    have hsearch :
        search sim folder tags isFile threshold limit (it :: its) =
          (sortResults
            (scanCandidates sim folder tags isFile threshold (it :: its))).take
            limit := rfl
    rw [hsearch]
    refine ⟨?_, ?_, ?_, ?_⟩
    · exact List.Pairwise.sublist (List.take_sublist limit _)
        (pairwise_sortResults _)
    · intro r hr
      have hr₂ : r ∈ sortResults
          (scanCandidates sim folder tags isFile threshold (it :: its)) :=
        (List.take_sublist limit _).mem hr
      rw [mem_sortResults] at hr₂
      exact mem_scanCandidates_threshold sim folder tags isFile threshold
        (it :: its) r hr₂
    · simpa using List.length_take_le limit _
    · intro q
      have hpre := (List.take_prefix limit
        (sortResults
          (scanCandidates sim folder tags isFile threshold (it :: its)))).filter
        (fun r => decide (r.similarity = q))
      rw [filter_sim_sortResults] at hpre
      exact hpre

/-- Witness for C6 at concrete inputs (the length bound instance). -/
theorem c6_witness :
    (search (fun _ => (1 : ℚ)) none none (fun _ => true) 0 1
      [⟨"a.md", BlueNotes.str "chunk-0", [1],
        ⟨BlueNotes.str "chunk-0", [], [], 0, 0, 0, []⟩, ⟨0, [], ""⟩⟩,
       ⟨"b.md", BlueNotes.str "chunk-0", [1],
        ⟨BlueNotes.str "chunk-0", [], [], 0, 0, 0, []⟩, ⟨0, [], ""⟩⟩]).length ≤ 1 :=
  (c6_search_ranking (fun _ => (1 : ℚ)) none none (fun _ => true) 0 1
    [⟨"a.md", BlueNotes.str "chunk-0", [1],
      ⟨BlueNotes.str "chunk-0", [], [], 0, 0, 0, []⟩, ⟨0, [], ""⟩⟩,
     ⟨"b.md", BlueNotes.str "chunk-0", [1],
      ⟨BlueNotes.str "chunk-0", [], [], 0, 0, 0, []⟩, ⟨0, [], ""⟩⟩]).2.2.1

end BlueNotes.Claims

namespace BlueNotes.NoteChunker

open BlueNotes.MarkdownParser

/-- The paragraph-grouping loop never returns an empty chunk list once
anything is pending (a non-empty accumulator, an already flushed chunk,
or remaining paragraphs). -/
theorem paraGo_ne_nil (mw : Nat) (hs : List Str) :
    ∀ (ps : List Str) (chunks : List Chunk) (current : List Str) (cw : Nat),
      (chunks ≠ [] ∨ current ≠ [] ∨ ps ≠ []) →
      paraGo mw hs ps chunks current cw ≠ [] := by
  intro ps
  induction ps with
  | nil =>
    intro chunks current cw hne
    unfold paraGo
    split_ifs with hcur
    · simp
    · rcases hne with hc | hcu | hp
      · exact hc
      · exact absurd (by simpa using hcur) hcu
      · exact absurd rfl hp
  | cons p ps ih =>
    intro chunks current cw _
    unfold paraGo
    dsimp only
    split_ifs with hflush
    · exact ih _ _ _ (Or.inl (by simp))
    · exact ih _ _ _ (Or.inr (Or.inl (by simp)))

/-- `chunkByParagraphs` returns at least one chunk when given at least
one paragraph. -/
theorem chunkByParagraphs_ne_nil (mw : Nat) (ps : List Str) (hs : List Str)
    (hne : ps ≠ []) : chunkByParagraphs mw ps hs ≠ [] :=
  paraGo_ne_nil mw hs ps [] [] 0 (Or.inr (Or.inr hne))

/-- The sentence-grouping loop never returns an empty chunk list once a
chunk has been flushed or the accumulator is strictly longer than the
overlap seed. -/
theorem sentGo_ne_nil (mw : Nat) (hs : List Str) :
    ∀ (ss : List Str) (chunks : List Chunk) (current : List Str) (cw : Nat)
      (prevEnd : List Str),
      (chunks ≠ [] ∨ prevEnd.length < current.length) →
      sentGo mw hs ss chunks current cw prevEnd ≠ [] := by
  intro ss
  induction ss with
  | nil =>
    intro chunks current cw prevEnd hne
    unfold sentGo
    split_ifs with hlen
    · simp
    · rcases hne with hc | hlt
      · exact hc
      · exact absurd hlt hlen
  | cons s ss ih =>
    intro chunks current cw prevEnd hne
    unfold sentGo
    dsimp only
    split_ifs with hflush
    · exact ih _ _ _ _ (Or.inl (by simp))
    · rcases hne with hc | hlt
      · exact ih _ _ _ _ (Or.inl hc)
      · exact ih _ _ _ _ (Or.inr (by
          simp only [List.length_append, List.length_cons]
          omega))

/-- `chunkBySentences` returns at least one chunk when given at least
one sentence. -/
theorem chunkBySentences_ne_nil (mw : Nat) (ss : List Str) (hs : List Str)
    (hne : ss ≠ []) : chunkBySentences mw ss hs ≠ [] := by
  cases ss with
  | nil => exact absurd rfl hne
  | cons s rest =>
    unfold chunkBySentences sentGo
    rw [if_neg (by simp)]
    exact sentGo_ne_nil mw hs rest [] [s] (0 + countWords s) []
      (Or.inr (by simp))

end BlueNotes.NoteChunker

namespace BlueNotes.Claims

open BlueNotes.MarkdownParser BlueNotes.NoteChunker

/-- The C1 counterexample document: fifty lines of `#### h`, 100 words
in total, every heading deeper than the default `maxHeadingLevel` 3. -/
def c1doc : Str := joinSep ['\n'] (List.replicate 50 (str "#### h"))

set_option maxRecDepth 40000 in
/-- C1 counterexample: for this 100-word document whose only headings
are level 4, `chunk` with the default options takes the heading branch,
`buildSectionTree` filters every heading away and returns no sections,
and `chunk` returns the empty list — contradicting the claim that
`chunk` never returns an empty sequence. -/
theorem c1_counterexample : chunk DEFAULT_CHUNKING_OPTIONS c1doc = [] := by
  decide

/-- C1 as amended: `chunk` is total; on every input that does not take
the heading-based branch (word count below `minWords`, heading splitting
disabled, or no headings at all) it returns at least one chunk; and on
empty input it returns exactly one chunk with `wordCount = 0` (under
every option set).  The heading branch had to be excluded: a document
whose qualifying sections are all empty yields an empty chunk list. -/
theorem c1_amended (opts : ChunkingOptions) (content : Str)
    (h : countWords content < opts.minWords ∨ opts.splitAtHeadings = false ∨
      parseHeadings content = []) :
    chunk opts content ≠ [] ∧
    chunk opts [] = [⟨str "chunk-0", [], [], 0, 0, 0, []⟩] := by
  constructor
  · simp only [chunk]
    split_ifs with hmin hhead hpara hsent
    · simp [createSingleChunk]
    · rcases h with hm | hflag | hph
      · exact absurd hm hmin
      · rw [hflag] at hhead
        exact absurd hhead.1 (by simp)
      · exact absurd hph hhead.2
    · exact chunkByParagraphs_ne_nil opts.maxWords _ []
        (by
          intro hnil
          rw [hnil] at hpara
          simp at hpara)
    · exact chunkBySentences_ne_nil opts.maxWords _ []
        (by
          intro hnil
          rw [hnil] at hsent
          simp at hsent)
    · simp [createSingleChunk]
  · simp only [chunk]
    have hc : countWords ([] : Str) = 0 := rfl
    rw [hc]
    by_cases h0 : 0 < opts.minWords
    · rw [if_pos h0]
      decide
    · rw [if_neg h0]
      rw [if_neg (by
        intro hcontra
        exact hcontra.2 rfl)]
      rw [if_neg (by decide : ¬ 3 ≤ (splitIntoParagraphs ([] : Str)).length)]
      rw [if_neg (by decide : ¬ 3 ≤ (splitIntoSentences ([] : Str)).length)]
      decide

/-- Witness for C1 (amended) at concrete inputs. -/
theorem c1_witness :
    (countWords (str "hi") < DEFAULT_CHUNKING_OPTIONS.minWords ∨
      DEFAULT_CHUNKING_OPTIONS.splitAtHeadings = false ∨
      parseHeadings (str "hi") = []) ∧
    (chunk DEFAULT_CHUNKING_OPTIONS (str "hi") ≠ [] ∧
      chunk DEFAULT_CHUNKING_OPTIONS [] =
        [⟨str "chunk-0", [], [], 0, 0, 0, []⟩]) :=
  ⟨Or.inl (by decide),
    c1_amended DEFAULT_CHUNKING_OPTIONS (str "hi") (Or.inl (by decide))⟩

end BlueNotes.Claims

namespace BlueNotes.NoteChunker

/-- Decode a little-endian digit list, inverse of `natReprAux`. -/
def decodeRev : List Char → Nat
  | [] => 0
  | c :: cs => (c.toNat - 48) + 10 * decodeRev cs

/-- Evaluation of the digit character. -/
theorem digit_toNat (m : Nat) (hm : m < 10) :
    (Char.ofNat (48 + m)).toNat = 48 + m := by
  interval_cases m <;> rfl

/-- `decodeRev` inverts `natReprAux`. -/
theorem decode_natReprAux : ∀ n, decodeRev (natReprAux n) = n := by
  intro n
  induction n using Nat.strong_induction_on with
  | _ n ih =>
    cases n with
    | zero => simp [natReprAux, decodeRev]
    | succ m =>
      rw [natReprAux, decodeRev]
      rw [ih ((m + 1) / 10) (Nat.div_lt_self (by omega) (by omega))]
      rw [digit_toNat ((m + 1) % 10) (Nat.mod_lt _ (by omega))]
      omega

/-- Decimal rendering is injective. -/
theorem natRepr_injective : Function.Injective natRepr := by
  intro a b hab
  unfold natRepr at hab
  split_ifs at hab with ha hb hb
  · rw [ha, hb]
  · exfalso
    have hrev : natReprAux b = ['0'] := by
      have hr := congrArg List.reverse hab
      simpa using hr.symm
    have hdec := congrArg decodeRev hrev
    rw [decode_natReprAux] at hdec
    have h0 : decodeRev ['0'] = 0 := by decide
    rw [h0] at hdec
    exact hb hdec
  · exfalso
    have hrev : natReprAux a = ['0'] := by
      have hr := congrArg List.reverse hab
      simpa using hr
    have hdec := congrArg decodeRev hrev
    rw [decode_natReprAux] at hdec
    have h0 : decodeRev ['0'] = 0 := by decide
    rw [h0] at hdec
    exact ha hdec
  · have hraw := List.reverse_injective hab
    have := congrArg decodeRev hraw
    rwa [decode_natReprAux, decode_natReprAux] at this

/-- Sequential chunk ids are pairwise distinct. -/
theorem chunkIdOfIndex_injective : Function.Injective chunkIdOfIndex := by
  intro a b hab
  unfold chunkIdOfIndex at hab
  exact natRepr_injective (List.append_cancel_left hab)

/-- The id field of a freshly built chunk. -/
theorem createChunkFromParts_chunkId (parts : List Str) (hs : List Str)
    (i : Nat) : (createChunkFromParts parts hs i).chunkId = chunkIdOfIndex i :=
  rfl

/-- Appending the next sequentially-numbered chunk preserves the
`ids = range` invariant. -/
theorem ids_append (chunks : List Chunk) (parts : List Str) (hs : List Str)
    (h : chunks.map (fun c => c.chunkId) =
      (List.range chunks.length).map chunkIdOfIndex) :
    (chunks ++ [createChunkFromParts parts hs chunks.length]).map
        (fun c => c.chunkId) =
      (List.range
          (chunks ++ [createChunkFromParts parts hs chunks.length]).length).map
        chunkIdOfIndex := by
  rw [List.map_append, h]
  simp [List.range_succ, createChunkFromParts_chunkId]

/-- The paragraph loop only emits sequentially-numbered chunk ids. -/
theorem paraGo_ids (mw : Nat) (hs : List Str) :
    ∀ (ps : List Str) (chunks : List Chunk) (current : List Str) (cw : Nat),
      chunks.map (fun c => c.chunkId) =
        (List.range chunks.length).map chunkIdOfIndex →
      (paraGo mw hs ps chunks current cw).map (fun c => c.chunkId) =
        (List.range (paraGo mw hs ps chunks current cw).length).map
          chunkIdOfIndex := by
  intro ps
  induction ps with
  | nil =>
    intro chunks current cw h
    unfold paraGo
    split_ifs with hcur
    · exact ids_append chunks current hs h
    · exact h
  | cons p ps ih =>
    intro chunks current cw h
    unfold paraGo
    dsimp only
    split_ifs with hflush
    · exact ih _ _ _ (ids_append chunks current hs h)
    · exact ih _ _ _ h

/-- The sentence loop only emits sequentially-numbered chunk ids. -/
theorem sentGo_ids (mw : Nat) (hs : List Str) :
    ∀ (ss : List Str) (chunks : List Chunk) (current : List Str) (cw : Nat)
      (prevEnd : List Str),
      chunks.map (fun c => c.chunkId) =
        (List.range chunks.length).map chunkIdOfIndex →
      (sentGo mw hs ss chunks current cw prevEnd).map (fun c => c.chunkId) =
        (List.range (sentGo mw hs ss chunks current cw prevEnd).length).map
          chunkIdOfIndex := by
  intro ss
  induction ss with
  | nil =>
    intro chunks current cw prevEnd h
    unfold sentGo
    split_ifs with hlen
    · exact ids_append chunks current hs h
    · exact h
  | cons s ss ih =>
    intro chunks current cw prevEnd h
    unfold sentGo
    dsimp only
    split_ifs with hflush
    · exact ih _ _ _ _ (ids_append chunks current hs h)
    · exact ih _ _ _ _ h

/-- Paragraph-grouped chunks carry pairwise-distinct ids. -/
theorem chunkByParagraphs_ids_nodup (mw : Nat) (ps : List Str)
    (hs : List Str) :
    ((chunkByParagraphs mw ps hs).map (fun c => c.chunkId)).Pairwise (· ≠ ·) := by
  have h := paraGo_ids mw hs ps [] [] 0 (by simp)
  unfold chunkByParagraphs
  rw [h]
  exact ((List.nodup_range _).map chunkIdOfIndex_injective)

/-- Sentence-grouped chunks carry pairwise-distinct ids. -/
theorem chunkBySentences_ids_nodup (mw : Nat) (ss : List Str)
    (hs : List Str) :
    ((chunkBySentences mw ss hs).map (fun c => c.chunkId)).Pairwise (· ≠ ·) := by
  have h := sentGo_ids mw hs ss [] [] 0 [] (by simp)
  unfold chunkBySentences
  rw [h]
  exact ((List.nodup_range _).map chunkIdOfIndex_injective)

end BlueNotes.NoteChunker

namespace BlueNotes.Claims

open BlueNotes.MarkdownParser BlueNotes.NoteChunker

/-- The C2 counterexample document: two `# A` headings, 50 words under
each, 104 words in total. -/
def c2doc : Str :=
  str "# A" ++ '\n' :: joinSep [' '] (List.replicate 50 (str "x")) ++
    '\n' :: str "# A" ++ '\n' :: joinSep [' '] (List.replicate 50 (str "x"))

set_option maxRecDepth 40000 in
/-- C2 counterexample: two headings with the same slugified text produce
two chunks whose `chunkId` is `a` in one document, so the chunkId list is
not pairwise distinct. -/
theorem c2_counterexample :
    ¬ ((chunk DEFAULT_CHUNKING_OPTIONS c2doc).map
        (fun c => c.chunkId)).Pairwise (· ≠ ·) := by
  intro hp
  have hids : (chunk DEFAULT_CHUNKING_OPTIONS c2doc).map
      (fun c => c.chunkId) = [str "a", str "a"] := by decide
  rw [hids] at hp
  exact (List.pairwise_cons.mp hp).1 (str "a") (by simp) rfl

/-- C2 as amended: `chunkId` values are pairwise distinct for every
document that is not chunked through the heading-based branch (heading
splitting disabled or no headings present): the single-chunk paths yield
one id and the paragraph/sentence groupings number their chunks
sequentially.  Under heading-based chunking the claim fails: two
headings with the same slug give equal ids, and each top-level section
restarts the `chunk-<n>` counter. -/
theorem c2_amended (opts : ChunkingOptions) (content : Str)
    (h : opts.splitAtHeadings = false ∨ parseHeadings content = []) :
    ((chunk opts content).map (fun c => c.chunkId)).Pairwise (· ≠ ·) := by
  simp only [chunk]
  split_ifs with hmin hhead hpara hsent
  · simp [createSingleChunk]
  · exfalso
    rcases h with hflag | hph
    · rw [hflag] at hhead
      exact absurd hhead.1 (by simp)
    · exact hhead.2 hph
  · exact chunkByParagraphs_ids_nodup opts.maxWords _ []
  · exact chunkBySentences_ids_nodup opts.maxWords _ []
  · simp [createSingleChunk]

/-- Witness for C2 (amended) at concrete inputs. -/
theorem c2_witness :
    (DEFAULT_CHUNKING_OPTIONS.splitAtHeadings = false ∨
      parseHeadings (str "one. two. three. four.") = []) ∧
    ((chunk DEFAULT_CHUNKING_OPTIONS (str "one. two. three. four.")).map
      (fun c => c.chunkId)).Pairwise (· ≠ ·) :=
  ⟨Or.inr (by decide),
    c2_amended DEFAULT_CHUNKING_OPTIONS (str "one. two. three. four.")
      (Or.inr (by decide))⟩

end BlueNotes.Claims

namespace BlueNotes.Claims

open BlueNotes.MarkdownParser

/-- The C4 document: a level-4 heading (deeper than
`maxHeadingLevel = 3`) inside the `# H1` section, followed by content,
then a qualifying `## H2` heading. -/
def c4doc : Str :=
  str "# H1" ++ '\n' :: str "Content." ++ '\n' :: '\n' ::
    str "#### H4" ++ '\n' :: str "Deep content line." ++ '\n' :: '\n' ::
    str "## H2" ++ '\n' :: str "New."

set_option maxRecDepth 40000 in
/-- C4: the claim (and the spec) says lines under a heading deeper than
`maxHeadingLevel` stay ordinary content of the enclosing section, a
section's content run stopping only at the next heading of level at most
`maxHeadingLevel`.  In the code, the content loop of `buildSectionTree`
breaks at any line matching `/^#{1,6}\s+/` — including deeper headings —
so the `#### H4` line and everything after it up to `## H2` are dropped
from the `# H1` section and appear in no section at all.  This theorem
evaluates `buildSectionTree` at such a document: the `# H1` section's
content stops before the deep heading, and the dropped lines are in no
section. -/
theorem c4_deep_heading_content_dropped :
    (buildSectionTree (splitLines c4doc) (parseHeadings c4doc) 3).map
        (fun s => s.contentLines) =
      [[str "Content.", []], [str "New."]] ∧
    (∀ s ∈ buildSectionTree (splitLines c4doc) (parseHeadings c4doc) 3,
      str "#### H4" ∉ s.contentLines ∧
      str "Deep content line." ∉ s.contentLines) := by
  refine ⟨by decide, by decide⟩

end BlueNotes.Claims
